import Mathlib

/-!
Verification of the Kokkos `MemPoolList` allocator
(`src/core/src/impl/Kokkos_MemoryPool_Inline.hpp`).

The pool keeps one singly linked free list per size class.  A word of pool
memory is modelled by `MemPool.Ptr`: the null pointer, the reserved lock
sentinel `KOKKOS_MEMPOOLLIST_LOCK`, or a chunk address.  The sequential
(single-threaded) behaviour of `insert_list`, `allocate` and `deallocate`
is embedded as state-passing functions over `MemPool.PoolState`; in a
single-threaded run every compare-and-swap whose expected value is the value
just read succeeds, and a loop that would spin forever (observing a lock that
no other thread will ever release, or exhausting the retry structure) is made
visible through an explicit fuel parameter / `Option` result.

The concurrent lock protocol (which thread may change a free-list head, and
with which expected value) is modelled separately as a transition system
`MemPool.CStep` over the head words, and the per-iteration shared-memory
actions of the two retry loops are modelled by `MemPool.insertIterActs` and
`MemPool.removeIterActs`.
-/

namespace MemPool

/-- Value of one machine word used by the pool: the null pointer, the reserved
sentinel `KOKKOS_MEMPOOLLIST_LOCK` (line 47 of the source), or the address of a
chunk. -/
inductive Ptr where
  | null : Ptr
  | lock : Ptr
  | addr : Nat → Ptr
deriving DecidableEq, Repr

/-- Sequential pool state: the per-class head words `m_freelist` and the link
word `m_next` stored in the first bytes of every chunk, indexed by the chunk's
address. -/
@[ext]
structure PoolState where
  heads : List Ptr
  mem : Nat → Ptr

/-- Result of `MemPoolList::allocate`.  `tooLarge` is the
`REQUESTED_SIZE_TOO_LARGE` abort (line 139), `exhausted` the
`NO_CHUNKS_BIG_ENOUGH` outcome (line 207, returning null), and `diverge` marks
a run whose retry loop did not finish within the given fuel (the code itself
would still be looping). -/
inductive AllocRes where
  | ok : Nat → AllocRes
  | tooLarge : AllocRes
  | exhausted : AllocRes
  | diverge : AllocRes
deriving DecidableEq, Repr

/-- Result of `MemPoolList::deallocate`.  `outOfRange` is the
`ADDRESS_OUT_OF_RANGE` abort (line 275), `invalidSize` the `CHUNK_TOO_LARGE`
abort (line 291), and `diverge` marks a call whose `insert_list` would spin
forever on a locked head. -/
inductive DeallocRes where
  | ok : DeallocRes
  | outOfRange : DeallocRes
  | invalidSize : DeallocRes
  | diverge : DeallocRes
deriving DecidableEq, Repr

/-- The ascending size-class scan
`for ( ; m_chunk_size[l] > 0 && alloc_size > m_chunk_size[l]; ++l );`
(lines 134-135 of `allocate`, lines 286-287 of `deallocate`): index of the
first class whose chunk size is at least `s`, or `none` if the zero sentinel
(modelled by a zero entry or the end of the list) is reached first. -/
def findClass : List Nat → Nat → Option Nat
  | [], _ => none
  | c :: cs, s =>
    if c = 0 then none
    else if s ≤ c then some 0
    else (findClass cs s).map (· + 1)

/-- The final value of the index `l_exp` left by the same scan, also when the
sentinel was reached (used by the error policy that does not abort on
`REQUESTED_SIZE_TOO_LARGE`, where line 138's check is compiled out). -/
def scanStop : List Nat → Nat → Nat
  | [], _ => 0
  | c :: cs, s =>
    if c = 0 then 0
    else if s ≤ c then 0
    else scanStop cs s + 1

/-- Read of the head word `m_freelist[l]` of free list `l` (a missing entry
reads as null, matching a list that was never seeded). -/
def headAt (hs : List Ptr) (l : Nat) : Ptr :=
  hs.getD l .null

/-- Sequential `MemPoolList::insert_list` (lines 94-123): read the head of
free list `list`; if it is the lock sentinel the loop spins (modelled as
`none`, since no other thread exists to release it); otherwise write the
observed head into `lp_tail->m_next` and install `lp_head` as the new head
(the compare-and-swap of line 116 succeeds because nothing changed between the
read and the swap in a single-threaded run). -/
def insert_list (st : PoolState) (lp_head lp_tail : Nat) (list : Nat) : Option PoolState :=
  if headAt st.heads list = .lock then none
  else some { heads := st.heads.set list (.addr lp_head),
              mem := fun x => if x = lp_tail then headAt st.heads list else st.mem x }

/-- The freelist search
`for ( ; m_chunk_size[l] > 0 && m_freelist[l] == 0; ++l );` (line 150),
run over the table and head array starting at `l_exp` (the caller passes the
dropped suffixes): offset of the first class whose head word was observed
non-null, or `none` if the sentinel was reached first. -/
def scanNE : List Nat → List Ptr → Option Nat
  | [], _ => none
  | c :: cs, hs =>
    if c = 0 then none
    else if hs.headD .null = .null then (scanNE cs hs.tail).map (· + 1)
    else some 0

/-- The chain-building loop of the split path (lines 238-241):
`for (i = 2; i < num_chunks; ++i) ((Link*)(p+(i-1)*sze))->m_next = p+i*sze;`
applied as `k` iterations, iteration `j+1` performing the write of `i = j+2`. -/
def linkChunks (p sze : Nat) (mem : Nat → Ptr) : Nat → (Nat → Ptr)
  | 0 => mem
  | j + 1 =>
    let m := linkChunks p sze mem j
    fun x => if x = p + (j + 1) * sze then Ptr.addr (p + (j + 2) * sze) else m x

/-- The split path of `allocate` (lines 230-248): a chunk `p` removed from
class `l` larger than the fitting class `l_exp` is divided into
`num_chunks = m_chunk_size[l] / m_chunk_size[l_exp]` sub-chunks; sub-chunks
`1 .. num_chunks-1` are linked into a chain and pushed onto free list `l_exp`
by `insert_list (p + sze) (p + (num_chunks-1)*sze) l_exp`. -/
def splitChunk (cs : List Nat) (l_exp l p : Nat) (st : PoolState) : Option PoolState :=
  let sze := cs.getD l_exp 0
  let num_chunks := cs.getD l 0 / sze
  let mem1 := linkChunks p sze st.mem (num_chunks - 2)
  insert_list { heads := st.heads, mem := mem1 } (p + sze) (p + (num_chunks - 1) * sze) l_exp

/-- The retry loop of `allocate` (lines 147-250) in a single-threaded run.
Each iteration consumes one unit of fuel.  The iteration scans for a class at
or above `l_exp` with a non-null head (line 150).  If one is found and its
head is a chunk address, the lock compare-and-swap (line 164) and the unlock
compare-and-swap (line 174) both succeed sequentially, the removed chunk's
link word is cleared (line 188), and the chunk is split if it came from a
class above `l_exp` (lines 230-248).  If the head was null or locked the
iteration retries without touching `num_tries` (lines 193-198).  If the scan
reached the sentinel, the iteration gives up once `num_tries` has reached
100000 (lines 201-212) and otherwise increments `num_tries`. -/
def allocLoop (cs : List Nat) (l_exp : Nat) : Nat → Nat → PoolState → AllocRes × PoolState
  | 0, _, st => (.diverge, st)
  | fuel + 1, num_tries, st =>
    match scanNE (cs.drop l_exp) (st.heads.drop l_exp) with
    | some j =>
      match headAt st.heads (l_exp + j) with
      | .addr a =>
        let head_next := st.mem a
        let st1 : PoolState :=
          { heads := st.heads.set (l_exp + j) head_next,
            mem := fun x => if x = a then .null else st.mem x }
        if 0 < j then
          match splitChunk cs l_exp (l_exp + j) a st1 with
          | some st2 => (.ok a, st2)
          | none => (.diverge, st1)
        else (.ok a, st1)
      | _ => allocLoop cs l_exp fuel num_tries st
    | none =>
      if num_tries = 100000 then (.exhausted, st)
      else allocLoop cs l_exp fuel (num_tries + 1) st

/-- Sequential `MemPoolList::allocate` (lines 127-263) under the source's
configured `KOKKOS_MEMPOOLLIST_PRINTERR` policy: if the size-class scan hits
the sentinel the call aborts with `REQUESTED_SIZE_TOO_LARGE` (lines 137-141)
before the retry loop runs; otherwise the retry loop removes a chunk. -/
def allocate (cs : List Nat) (st : PoolState) (alloc_size fuel : Nat) : AllocRes × PoolState :=
  match findClass cs alloc_size with
  | none => (.tooLarge, st)
  | some l_exp => allocLoop cs l_exp fuel 0 st

/-- Sequential `MemPoolList::allocate` under the return-failure policy
(`KOKKOS_MEMPOOLLIST_PRINTERR` not defined): the check of line 138 is compiled
out, so `l_exp` is left at the sentinel position and the retry loop runs
anyway. -/
def allocateNoAbort (cs : List Nat) (st : PoolState) (alloc_size fuel : Nat) :
    AllocRes × PoolState :=
  allocLoop cs (scanStop cs alloc_size) fuel 0 st

/-- Sequential `MemPoolList::deallocate` (lines 267-303) under the source's
configured `KOKKOS_MEMPOOLLIST_PRINTERR` policy: the address-range check of
lines 270-282 runs first, then the size-class scan (lines 286-287) with the
`CHUNK_TOO_LARGE` abort (lines 289-297), then
`insert_list(lp, lp, l)` pushes the single chunk (line 302). -/
def deallocate (cs : List Nat) (base len : Nat) (st : PoolState) (p s : Nat) :
    DeallocRes × PoolState :=
  if p < base ∨ base + len < p + s then (.outOfRange, st)
  else
    match findClass cs s with
    | none => (.invalidSize, st)
    | some l =>
      match insert_list st p p l with
      | some st1 => (.ok, st1)
      | none => (.diverge, st)

/-- A shared-memory action performed by one iteration of a retry loop: a plain
write of a chunk's link word, or an atomic compare-and-swap on a free-list
head word. -/
inductive Action where
  | writeLink : Nat → Ptr → Action
  | cas : Nat → Ptr → Ptr → Action
deriving DecidableEq, Repr

/-- The shared-memory actions of one iteration of insert_list's retry loop
(lines 100-122), as a function of the head value `old_head` the iteration
observed: if the list was observed locked, the iteration does nothing and
retries (line 103 guards the whole body); otherwise it writes `old_head` into
`lp_tail->m_next` (line 108) and attempts the compare-and-swap of line 116
with expected value `old_head`. -/
def insertIterActs (lp_head lp_tail list : Nat) (old_head : Ptr) : List Action :=
  if old_head = .lock then []
  else [.writeLink lp_tail old_head, .cas list old_head (.addr lp_head)]

/-- The shared-memory actions of the removal attempt of one iteration of
allocate's retry loop (lines 154-165), as a function of the observed head
`old_head`: only when the head is a chunk address (neither null nor the lock
sentinel, line 157) is the locking compare-and-swap of line 164 attempted,
with expected value `old_head`. -/
def removeIterActs (list : Nat) (old_head : Ptr) : List Action :=
  match old_head with
  | .addr a => [.cas list (.addr a) .lock]
  | _ => []

/-- Head word of a null-terminated free-list chain holding the chunks
`addrs` in order. -/
def chainPtr : List Nat → Ptr
  | [] => .null
  | a :: _ => .addr a

/-- Link words of a null-terminated free-list chain holding the chunks
`addrs` in order; all other words are null. -/
def chainMem : List Nat → Nat → Ptr
  | [], _ => .null
  | a :: rest, x => if x = a then chainPtr rest else chainMem rest x

/-- State of a pool with a single configured size class whose free list holds
exactly the chunks `addrs`, in order (the post-construction state of a pool
carved into `addrs.length` chunks). -/
def mkChain (addrs : List Nat) : PoolState :=
  { heads := [chainPtr addrs], mem := chainMem addrs }

/-- `k` successive calls of `allocate`, returning the results in order
together with the final state. -/
def allocRun (cs : List Nat) (s fuel : Nat) : Nat → PoolState → List AllocRes × PoolState
  | 0, st => ([], st)
  | k + 1, st =>
    ((allocate cs st s fuel).1 :: (allocRun cs s fuel k (allocate cs st s fuel).2).1,
      (allocRun cs s fuel k (allocate cs st s fuel).2).2)

/-- Concurrent view of the shared free-list head words: the head of every
list, plus a ghost map recording which thread, if any, has successfully
locked a list's head and not yet released it. -/
structure CState where
  heads : Nat → Ptr
  holder : Nat → Option Nat

/-- The successful (state-changing) compare-and-swap events of the protocol.
Failed compare-and-swaps and plain reads do not change the head words, so the
reachable head states are exactly those generated by these events:

* `lockCAS` — allocate's locking compare-and-swap (line 164); it succeeds
  exactly when the head still holds the observed chunk address, which the
  guard of line 157 ensures is neither null nor the lock sentinel; the ghost
  `holder` records the winning thread;
* `unlockCAS` — the same thread's release compare-and-swap (line 174),
  installing the removed chunk's successor; it succeeds exactly when the head
  still holds the lock sentinel;
* `insertCAS` — insert_list's publishing compare-and-swap (line 116), whose
  expected value is never the lock sentinel (line 103). -/
inductive CStep : CState → CState → Prop
  | lockCAS (s : CState) (t l a : Nat) :
      s.heads l = .addr a →
      CStep s ⟨fun x => if x = l then .lock else s.heads x,
               fun x => if x = l then some t else s.holder x⟩
  | unlockCAS (s : CState) (t l : Nat) (v : Ptr) :
      s.holder l = some t →
      s.heads l = .lock →
      CStep s ⟨fun x => if x = l then v else s.heads x,
               fun x => if x = l then none else s.holder x⟩
  | insertCAS (s : CState) (l lp_head : Nat) (old : Ptr) :
      s.heads l = old →
      old ≠ .lock →
      CStep s ⟨fun x => if x = l then .addr lp_head else s.heads x, s.holder⟩

/-- A properly constructed pool: no list is locked and no thread holds a
removal lock. -/
def CInit (s : CState) : Prop :=
  (∀ l, s.holder l = none) ∧ (∀ l, s.heads l ≠ .lock)

/-- Concrete properly constructed concurrent state: every list heads a chunk
at address 7, no lock held. -/
def cInitEx : CState :=
  ⟨fun _ => .addr 7, fun _ => none⟩

/-- The state after thread 3 successfully locks list 0 of `cInitEx`. -/
def cLockedEx : CState :=
  ⟨fun x => if x = 0 then .lock else cInitEx.heads x,
   fun x => if x = 0 then some 3 else cInitEx.holder x⟩

/-! ### Properties of the size-class scan -/

theorem findClass_cons (c : Nat) (cs : List Nat) (s : Nat) :
    findClass (c :: cs) s =
      if c = 0 then none else if s ≤ c then some 0 else (findClass cs s).map (· + 1) := rfl

theorem findClass_some_lt_length {cs : List Nat} {s e : Nat}
    (h : findClass cs s = some e) : e < cs.length := by
  induction cs generalizing e with
  | nil => simp [findClass] at h
  | cons c rest ih =>
    rw [findClass_cons] at h
    split_ifs at h with hc hs
    · injection h with h
      subst h
      simp
    · rw [Option.map_eq_some'] at h
      obtain ⟨e', he', rfl⟩ := h
      have := ih he'
      simp only [List.length_cons]
      omega

theorem findClass_some_le {cs : List Nat} {s e : Nat}
    (h : findClass cs s = some e) : s ≤ cs.getD e 0 ∧ cs.getD e 0 ≠ 0 := by
  induction cs generalizing e with
  | nil => simp [findClass] at h
  | cons c rest ih =>
    rw [findClass_cons] at h
    split_ifs at h with hc hs
    · injection h with h
      subst h
      exact ⟨by simpa using hs, by simpa using hc⟩
    · rw [Option.map_eq_some'] at h
      obtain ⟨e', he', rfl⟩ := h
      simpa using ih he'

theorem findClass_some_min {cs : List Nat} {s e : Nat}
    (h : findClass cs s = some e) : ∀ i, i < e → cs.getD i 0 < s := by
  induction cs generalizing e with
  | nil => simp [findClass] at h
  | cons c rest ih =>
    rw [findClass_cons] at h
    split_ifs at h with hc hs
    · injection h with h
      subst h
      omega
    · rw [Option.map_eq_some'] at h
      obtain ⟨e', he', rfl⟩ := h
      intro i hi
      cases i with
      | zero => simpa using Nat.lt_of_not_le hs
      | succ i' => simpa using ih he' i' (by omega)

theorem findClass_none_iff :
    ∀ (cs : List Nat) (s : Nat), (∀ x ∈ cs, 0 < x) → cs.Sorted (· < ·) →
      ∀ (hne : cs ≠ []), (findClass cs s = none ↔ cs.getLast hne < s) := by
  intro cs
  induction cs with
  | nil => intro s _ _ hne; exact absurd rfl hne
  | cons c rest ih =>
    intro s hpos hsort hne
    have hc : c ≠ 0 := by have := hpos c (by simp); omega
    cases rest with
    | nil =>
      have hlast : (c :: ([] : List Nat)).getLast hne = c := rfl
      rw [hlast, findClass_cons, if_neg hc]
      by_cases hs : s ≤ c
      · simp only [if_pos hs]
        simp
        omega
      · simp only [if_neg hs]
        simp [findClass]
        omega
    | cons d rest' =>
      have hne' : (d :: rest') ≠ [] := by simp
      have hsort' : (d :: rest').Sorted (· < ·) := hsort.of_cons
      have hpos' : ∀ x ∈ d :: rest', 0 < x := fun x hx => hpos x (by simp [hx])
      have hlast : (c :: d :: rest').getLast hne = (d :: rest').getLast hne' :=
        List.getLast_cons hne'
      rw [hlast, findClass_cons, if_neg hc]
      by_cases hs : s ≤ c
      · have hcl : c < (d :: rest').getLast hne' :=
          (List.pairwise_cons.mp hsort).1 _ (List.getLast_mem hne')
        simp only [if_pos hs]
        simp
        omega
      · rw [if_neg hs, Option.map_eq_none']
        exact ih s hpos' hsort' hne'

theorem allocLoop_fst_ne_tooLarge (cs : List Nat) (l_exp : Nat) (fuel num_tries : Nat)
    (st : PoolState) : (allocLoop cs l_exp fuel num_tries st).1 ≠ .tooLarge := by
  induction fuel generalizing num_tries st with
  | zero => simp [allocLoop]
  | succ fuel ih =>
    rw [allocLoop]
    cases hscan : scanNE (cs.drop l_exp) (st.heads.drop l_exp) with
    | none =>
      dsimp only
      by_cases ht : num_tries = 100000
      · simp [ht]
      · simpa [ht] using ih (num_tries + 1) st
    | some j =>
      dsimp only
      cases hhd : headAt st.heads (l_exp + j) with
      | null => simpa using ih num_tries st
      | lock => simpa using ih num_tries st
      | addr a =>
        dsimp only
        by_cases hj : 0 < j
        · cases hsp : splitChunk cs l_exp (l_exp + j) a
            { heads := st.heads.set (l_exp + j) (st.mem a),
              mem := fun x => if x = a then .null else st.mem x } with
          | none => simp [hj, hsp]
          | some st2 => simp [hj, hsp]
        · simp [hj]

theorem allocate_fst_tooLarge_iff (cs : List Nat) (st : PoolState) (s fuel : Nat) :
    (allocate cs st s fuel).1 = .tooLarge ↔ findClass cs s = none := by
  unfold allocate
  cases h : findClass cs s with
  | none => simp
  | some l_exp => simpa using allocLoop_fst_ne_tooLarge cs l_exp fuel 0 st

/-! ### Claim theorems -/

/-- C1: `allocate s` picks as `l_exp` the minimal size-class index whose chunk
size is at least `s`, by the ascending sentinel-terminated scan; a request of
exactly the largest configured class size never aborts with
`REQUESTED_SIZE_TOO_LARGE`, and the abort fires exactly when the request
exceeds the largest configured class size. -/
theorem c1_size_class_lookup (cs : List Nat) (s : Nat) (st : PoolState) (fuel : Nat)
    (hpos : ∀ x ∈ cs, 0 < x) (hsort : cs.Sorted (· < ·)) (hne : cs ≠ []) :
    (∀ e, findClass cs s = some e →
      e < cs.length ∧ s ≤ cs.getD e 0 ∧ ∀ i, i < e → cs.getD i 0 < s) ∧
    (allocate cs st (cs.getLast hne) fuel).1 ≠ .tooLarge ∧
    ((allocate cs st s fuel).1 = .tooLarge ↔ cs.getLast hne < s) := by
  refine ⟨fun e he => ⟨findClass_some_lt_length he, (findClass_some_le he).1,
    findClass_some_min he⟩, ?_, ?_⟩
  · rw [Ne, allocate_fst_tooLarge_iff, findClass_none_iff cs _ hpos hsort hne]
    omega
  · rw [allocate_fst_tooLarge_iff, findClass_none_iff cs s hpos hsort hne]

/-- Witness for C1 at the table `[2, 4]`, request size `3`. -/
theorem c1_size_class_lookup_witness :
    (∀ x ∈ [2, 4], 0 < x) ∧
    ((allocate [2, 4] ⟨[.null, .null], fun _ => .null⟩ 3 1).1 = .tooLarge ↔
      ([2, 4] : List Nat).getLast (by simp) < 3) :=
  ⟨by decide, (c1_size_class_lookup [2, 4] 3 ⟨[.null, .null], fun _ => .null⟩ 1
    (by decide) (by decide) (by simp)).2.2⟩

/-! ### The exhaustion path of the retry loop -/

theorem allocLoop_exhausted_of_scan_none (cs : List Nat) (l_exp : Nat) (st : PoolState)
    (hscan : scanNE (cs.drop l_exp) (st.heads.drop l_exp) = none) :
    ∀ fuel num_tries, num_tries ≤ 100000 → 100001 - num_tries ≤ fuel →
      allocLoop cs l_exp fuel num_tries st = (.exhausted, st) := by
  intro fuel
  induction fuel with
  | zero => intro t h1 h2; omega
  | succ fuel ih =>
    intro t h1 h2
    rw [allocLoop, hscan]
    dsimp only
    by_cases ht : t = 100000
    · simp [ht]
    · rw [if_neg ht]
      exact ih (t + 1) (by omega) (by omega)

theorem allocLoop_diverge_of_scan_none (cs : List Nat) (l_exp : Nat) (st : PoolState)
    (hscan : scanNE (cs.drop l_exp) (st.heads.drop l_exp) = none) :
    ∀ fuel num_tries, fuel < 100001 - num_tries →
      allocLoop cs l_exp fuel num_tries st = (.diverge, st) := by
  intro fuel
  induction fuel with
  | zero => intro t _; rfl
  | succ fuel ih =>
    intro t h
    rw [allocLoop, hscan]
    dsimp only
    have ht : t ≠ 100000 := by omega
    rw [if_neg ht]
    exact ih (t + 1) (by omega)

theorem scanNE_drop_scanStop_eq_none (cs : List Nat) (s : Nat)
    (h : findClass cs s = none) :
    ∀ hs : List Ptr, scanNE (cs.drop (scanStop cs s)) hs = none := by
  induction cs with
  | nil => intro hs; rfl
  | cons c rest ih =>
    intro hs
    rw [findClass_cons] at h
    by_cases hc : c = 0
    · subst hc
      simp [scanStop, scanNE]
    · rw [if_neg hc] at h
      by_cases hsc : s ≤ c
      · rw [if_pos hsc] at h
        cases h
      · rw [if_neg hsc, Option.map_eq_none'] at h
        show scanNE ((c :: rest).drop (scanStop (c :: rest) s)) hs = none
        rw [show scanStop (c :: rest) s = scanStop rest s + 1 by
          rw [scanStop]; rw [if_neg hc, if_neg hsc]]
        exact ih h hs

/-! ### C5: when the too-large request is surfaced, by error policy -/

/-- C5 counterexample: under the return-failure policy (the
`KOKKOS_MEMPOOLLIST_PRINTERR` check of line 138 compiled out), a request of 5
against the single class table `[4]` is not surfaced before the probe loop:
after one whole-table probe the loop is still running, and a full run ends in
the null-returning `NO_CHUNKS_BIG_ENOUGH` outcome, never the
`REQUESTED_SIZE_TOO_LARGE` one. -/
theorem c5_counterexample :
    (allocateNoAbort [4] ⟨[.null], fun _ => .null⟩ 5 1).1 = .diverge ∧
    (allocateNoAbort [4] ⟨[.null], fun _ => .null⟩ 5 100001).1 = .exhausted ∧
    AllocRes.exhausted ≠ .tooLarge := by
  refine ⟨?_, ?_, by decide⟩
  · rfl
  · rw [allocateNoAbort,
      allocLoop_exhausted_of_scan_none [4] (scanStop [4] 5) ⟨[.null], fun _ => .null⟩
        (scanNE_drop_scanStop_eq_none [4] 5 (by decide) _) 100001 0 (by omega) (by omega)]

/-- C5 (amended): when the request exceeds the largest configured class, the
behaviour depends on the error policy.  Under the abort-on-error policy
(`KOKKOS_MEMPOOLLIST_PRINTERR`, the source's configured default),
`REQUESTED_SIZE_TOO_LARGE` is surfaced immediately, before any free-list probe
or attempt-counter iteration, with the pool state untouched.  Under the
return-failure policy the failure is not surfaced immediately: the retry loop
runs the full 100001 whole-table probes, drives the attempt counter to its
threshold, and only then returns the null failure value — the same outcome as
pool exhaustion. -/
theorem c5_policy_dependent_surfacing (cs : List Nat) (st : PoolState) (s : Nat)
    (hpos : ∀ x ∈ cs, 0 < x) (hsort : cs.Sorted (· < ·)) (hne : cs ≠ [])
    (hbig : cs.getLast hne < s) :
    (∀ fuel, allocate cs st s fuel = (.tooLarge, st)) ∧
    (∀ fuel, 100001 ≤ fuel → allocateNoAbort cs st s fuel = (.exhausted, st)) ∧
    (∀ fuel, fuel < 100001 → allocateNoAbort cs st s fuel = (.diverge, st)) := by
  have hnone : findClass cs s = none := (findClass_none_iff cs s hpos hsort hne).mpr hbig
  have hscan := scanNE_drop_scanStop_eq_none cs s hnone (st.heads.drop (scanStop cs s))
  refine ⟨fun fuel => ?_, fun fuel hf => ?_, fun fuel hf => ?_⟩
  · rw [allocate, hnone]
  · rw [allocateNoAbort]
    exact allocLoop_exhausted_of_scan_none cs _ st hscan fuel 0 (by omega) (by omega)
  · rw [allocateNoAbort]
    exact allocLoop_diverge_of_scan_none cs _ st hscan fuel 0 (by omega)

/-- Witness for C5 (amended) at the table `[4]`, request size `5`. -/
theorem c5_policy_dependent_surfacing_witness :
    (∀ x ∈ [4], 0 < x) ∧
    allocate [4] ⟨[.null], fun _ => .null⟩ 5 0 =
      (.tooLarge, ⟨[.null], fun _ => .null⟩) :=
  ⟨by decide, (c5_policy_dependent_surfacing [4] ⟨[.null], fun _ => .null⟩ 5
    (by decide) (by decide) (by simp) (by decide)).1 0⟩

/-! ### C2 and C10: the undersized-split path -/

/-- C2 (bug evaluation): with the strictly increasing class table `[2, 3]`
(so `num_chunks = 3 / 2 = 1`) and a single free chunk at address 10 on class
1, `allocate 2` must be serviced from class 1 and, by the splitting invariant,
insert `num_chunks - 1 = 0` chunks onto free list 0, leaving its head null.
The code instead calls `insert_list (p+2) p 0` unconditionally (line 247),
making the head of free list 0 the address `p + 2 = 12`. -/
theorem c2_split_single_chunk_eval :
    (allocate [2, 3] ⟨[.null, .addr 10], fun _ => .null⟩ 2 1).1 = .ok 10 ∧
    (allocate [2, 3] ⟨[.null, .addr 10], fun _ => .null⟩ 2 1).2.heads =
      [.addr 12, .null] ∧
    ([.addr 12, .null] : List Ptr) ≠ [.null, .null] := by
  exact ⟨rfl, rfl, by decide⟩

/-- C10 (bug evaluation): in the same run as `c2_split_single_chunk_eval`
(classes `[2, 3]`, chunk `p = 10` removed from class 1 and split for class 0,
`num_chunks = 3 / 2 = 1`), the address that becomes the head of free list 0
is `p + 2 = 12`, which lies inside the trailing remainder
`[p + num_chunks * size(e), p + size(c)) = [12, 13)` — the bytes the claim
says are never made free-list-resident. -/
theorem c10_trailing_bytes_eval :
    (allocate [2, 3] ⟨[.null, .addr 10], fun _ => .null⟩ 2 1).2.heads.headD .null =
      .addr 12 ∧
    10 + 3 / 2 * 2 ≤ 12 ∧ 12 < 10 + 3 := by
  exact ⟨rfl, by decide, by decide⟩

/-! ### C8: a locked observation is never the expected value of a CAS -/

/-- C8: an iteration of insert_list's retry loop that observes the lock
sentinel performs no write and no compare-and-swap (pure spinning), and every
compare-and-swap either loop performs uses the observed head — never the lock
sentinel — as its expected value; likewise allocate's removal attempt performs
no compare-and-swap when the observed head is the lock sentinel.  In the
sequential embedding, insert_list on a locked list accordingly spins without
effect. -/
theorem c8_locked_never_expected :
    (∀ lp_head lp_tail list, insertIterActs lp_head lp_tail list .lock = []) ∧
    (∀ lp_head lp_tail list o l e nv,
      Action.cas l e nv ∈ insertIterActs lp_head lp_tail list o → e = o ∧ e ≠ .lock) ∧
    (∀ list, removeIterActs list .lock = []) ∧
    (∀ list o l e nv,
      Action.cas l e nv ∈ removeIterActs list o → e = o ∧ e ≠ .lock) ∧
    (∀ st lp_head lp_tail list,
      headAt st.heads list = .lock → insert_list st lp_head lp_tail list = none) := by
  refine ⟨fun _ _ _ => rfl, ?_, fun _ => rfl, ?_, ?_⟩
  · intro lp_head lp_tail list o l e nv hmem
    by_cases ho : o = .lock
    · subst ho; simp [insertIterActs] at hmem
    · rw [insertIterActs, if_neg ho] at hmem
      rcases List.mem_cons.mp hmem with h | h
      · cases h
      · rcases List.mem_cons.mp h with h2 | h2
        · injection h2 with h3 h4 h5
          exact ⟨h4, by rw [h4]; exact ho⟩
        · simp at h2
  · intro list o l e nv hmem
    cases o with
    | null => simp [removeIterActs] at hmem
    | lock => simp [removeIterActs] at hmem
    | addr a =>
      rw [removeIterActs] at hmem
      rcases List.mem_cons.mp hmem with h | h
      · injection h with h3 h4 h5
        exact ⟨h4, by rw [h4]; exact fun hx => Ptr.noConfusion hx⟩
      · simp at h
  · intro st lp_head lp_tail list hl
    rw [insert_list]
    simp [hl]

/-- Witness for C8: the locking compare-and-swap of allocate at an observed
head `addr 5` uses exactly that observed non-lock value as expected. -/
theorem c8_locked_never_expected_witness :
    (Action.cas 0 (.addr 5) .lock ∈ removeIterActs 0 (.addr 5)) ∧
    (Ptr.addr 5 = .addr 5 ∧ Ptr.addr 5 ≠ .lock) :=
  ⟨by decide, c8_locked_never_expected.2.2.2.1 0 (.addr 5) 0 (.addr 5) .lock (by decide)⟩

/-! ### C3: the unlock compare-and-swap cannot fail -/

/-- C3: in every state reachable (by any interleaving of successful
compare-and-swap events of the protocol) from a properly constructed pool, a
list whose removal lock is held by some thread still has the lock sentinel as
its head word, so the holder's release compare-and-swap — whose expected value
is the lock sentinel — always succeeds and the `UNLOCK_ERROR` branch
(lines 176-186) is unreachable. -/
theorem c3_unlock_always_succeeds (s0 s : CState) (hinit : CInit s0)
    (hreach : Relation.ReflTransGen CStep s0 s) :
    ∀ l t, s.holder l = some t → s.heads l = .lock := by
  induction hreach with
  | refl =>
    intro l t h
    rw [hinit.1 l] at h
    cases h
  | tail _ hstep ih =>
    cases hstep with
    | lockCAS t l a hh =>
      intro l' t' h'
      dsimp only at h' ⊢
      by_cases hl : l' = l
      · simp [hl]
      · rw [if_neg hl] at h' ⊢
        exact ih l' t' h'
    | unlockCAS t l v hhold hh =>
      intro l' t' h'
      dsimp only at h' ⊢
      by_cases hl : l' = l
      · rw [if_pos hl] at h'
        cases h'
      · rw [if_neg hl] at h' ⊢
        exact ih l' t' h'
    | insertCAS l lp_head old hh hno =>
      intro l' t' h'
      dsimp only at h' ⊢
      by_cases hl : l' = l
      · subst hl
        have := ih l' t' h'
        rw [hh] at this
        exact absurd this hno
      · rw [if_neg hl]
        exact ih l' t' h'

/-- Witness for C3: after thread 3 locks list 0 of the concrete pool
`cInitEx`, list 0's head word is the lock sentinel. -/
theorem c3_unlock_always_succeeds_witness :
    cLockedEx.holder 0 = some 3 ∧ cLockedEx.heads 0 = .lock :=
  ⟨rfl, c3_unlock_always_succeeds cInitEx cLockedEx
    ⟨fun _ => rfl, fun _ => fun hx => Ptr.noConfusion hx⟩
    (Relation.ReflTransGen.single (CStep.lockCAS cInitEx 3 0 7 rfl))
    0 3 rfl⟩

/-! ### Reading and updating head words -/

theorem headAt_ne_lock {hs : List Ptr} (h : ∀ pt ∈ hs, pt ≠ .lock) (l : Nat) :
    headAt hs l ≠ .lock := by
  rw [headAt]
  by_cases hl : l < hs.length
  · rw [List.getD_eq_getElem _ _ hl]
    exact h _ (List.getElem_mem hl)
  · rw [List.getD_eq_default _ _ (by omega)]
    exact fun hx => Ptr.noConfusion hx

theorem headAt_lt_length {hs : List Ptr} {l a : Nat} (h : headAt hs l = .addr a) :
    l < hs.length := by
  by_contra hl
  rw [headAt, List.getD_eq_default _ _ (by omega)] at h
  cases h

theorem headAt_set_self {hs : List Ptr} {l : Nat} (h : l < hs.length) (v : Ptr) :
    headAt (hs.set l v) l = v := by
  rw [headAt, List.getD_eq_getElem _ _ (by simpa using h)]
  simp [List.getElem_set]

theorem headAt_set_ne (hs : List Ptr) {l l' : Nat} (h : l ≠ l') (v : Ptr) :
    headAt (hs.set l v) l' = headAt hs l' := by
  rw [headAt, headAt, List.getD, List.getD, List.get?_eq_getElem?, List.get?_eq_getElem?,
    List.getElem?_set_ne h]

theorem headD_drop (hs : List Ptr) (l : Nat) :
    (hs.drop l).headD .null = headAt hs l := by
  simp [headAt, List.getD]

/-! ### C9: the tail link word is overwritten before publication -/

theorem insert_list_mem_update_tail (st : PoolState) (v : Ptr) (lp_head lp_tail list : Nat) :
    insert_list ⟨st.heads, fun x => if x = lp_tail then v else st.mem x⟩
        lp_head lp_tail list = insert_list st lp_head lp_tail list := by
  rw [insert_list, insert_list]
  dsimp only
  by_cases hl : headAt st.heads list = .lock
  · rw [if_pos hl, if_pos hl]
  · rw [if_neg hl, if_neg hl]
    congr 1
    refine PoolState.ext rfl ?_
    funext x
    by_cases hx : x = lp_tail <;> simp [hx]

/-- C9: insert_list unconditionally overwrites the tail chunk's link word with
the observed old head before attempting its compare-and-swap (line 108), so
its outcome is independent of the link word's prior value; on success the list
head becomes the chain head and the tail chunk links to the list's previous
contents; consequently deallocate re-inserts a chunk identically even when the
caller overwrote the chunk's first word while owning it, with no requirement
that the word be null on entry. -/
theorem c9_tail_link_overwritten (st : PoolState) (v : Ptr) (lp_head lp_tail list : Nat) :
    (insert_list ⟨st.heads, fun x => if x = lp_tail then v else st.mem x⟩
        lp_head lp_tail list = insert_list st lp_head lp_tail list) ∧
    (∀ st1, list < st.heads.length → insert_list st lp_head lp_tail list = some st1 →
      headAt st1.heads list = .addr lp_head ∧ st1.mem lp_tail = headAt st.heads list) ∧
    (∀ cs base len s l, ¬(lp_tail < base ∨ base + len < lp_tail + s) →
      findClass cs s = some l → headAt st.heads l ≠ .lock →
      deallocate cs base len ⟨st.heads, fun x => if x = lp_tail then v else st.mem x⟩
          lp_tail s =
        deallocate cs base len st lp_tail s) := by
  refine ⟨insert_list_mem_update_tail st v lp_head lp_tail list, ?_, ?_⟩
  · intro st1 hlen hins
    rw [insert_list] at hins
    by_cases hl : headAt st.heads list = .lock
    · rw [if_pos hl] at hins
      cases hins
    · rw [if_neg hl] at hins
      injection hins with hins
      subst hins
      exact ⟨headAt_set_self hlen _, by simp⟩
  · intro cs base len s l hrange hf hlk
    have hsome : insert_list st lp_tail lp_tail l =
        some ⟨st.heads.set l (.addr lp_tail),
              fun x => if x = lp_tail then headAt st.heads l else st.mem x⟩ := by
      rw [insert_list, if_neg hlk]
    rw [deallocate, deallocate, if_neg hrange, if_neg hrange, hf]
    simp only [insert_list_mem_update_tail st v lp_tail lp_tail l, hsome]

/-- Witness for C9: a one-chunk free list, tail word scribbled to `addr 99`,
re-inserted by deallocate exactly as an untouched chunk would be. -/
theorem c9_tail_link_overwritten_witness :
    (¬((8 : Nat) < 0 ∨ 0 + 100 < 8 + 3)) ∧
    deallocate [4] 0 100
        ⟨([.null] : List Ptr), fun x => if x = 8 then Ptr.addr 99 else (fun _ => Ptr.null) x⟩
        8 3 =
      deallocate [4] 0 100 ⟨([.null] : List Ptr), fun _ => Ptr.null⟩ 8 3 :=
  ⟨by decide,
    (c9_tail_link_overwritten ⟨[.null], fun _ => .null⟩ (.addr 99) 0 8 0).2.2
      [4] 0 100 3 0 (by decide) (by decide) (fun hx => Ptr.noConfusion hx)⟩

/-! ### C6: deallocate pushes exactly one chunk -/

/-- C6: deallocate signals `CHUNK_TOO_LARGE` (InvalidSize) exactly when the
given size exceeds the largest configured class; otherwise — for an in-range
pointer, as the contract requires — it pushes precisely the single chunk `p`
(chain head = chain tail = `p`) onto the free list of the minimal class whose
size is at least `size`, via insert_list, performing no splitting or merging
and leaving every other free list and every other memory word unchanged. -/
theorem c6_deallocate_single_push (cs : List Nat) (base len : Nat) (st : PoolState)
    (p s : Nat)
    (hpos : ∀ x ∈ cs, 0 < x) (hsort : cs.Sorted (· < ·)) (hne : cs ≠ [])
    (hrange : ¬(p < base ∨ base + len < p + s))
    (hlk : ∀ pt ∈ st.heads, pt ≠ .lock) :
    ((deallocate cs base len st p s).1 = .invalidSize ↔ cs.getLast hne < s) ∧
    (∀ l, findClass cs s = some l →
      (deallocate cs base len st p s).1 = .ok ∧
      (deallocate cs base len st p s).2.heads = st.heads.set l (.addr p) ∧
      (deallocate cs base len st p s).2.mem p = headAt st.heads l ∧
      (∀ x, x ≠ p → (deallocate cs base len st p s).2.mem x = st.mem x)) := by
  constructor
  · rw [deallocate, if_neg hrange, ← findClass_none_iff cs s hpos hsort hne]
    cases hf : findClass cs s with
    | none => simp
    | some l =>
      dsimp only
      rw [insert_list, if_neg (headAt_ne_lock hlk l)]
      simp
  · intro l hf
    rw [deallocate, if_neg hrange, hf]
    dsimp only
    rw [insert_list, if_neg (headAt_ne_lock hlk l)]
    refine ⟨rfl, rfl, by simp, fun x hx => by simp [hx]⟩

/-- Witness for C6: releasing a 3-byte chunk at address 8 into the table
`[2, 4]` pushes it onto class 1 and touches nothing else. -/
theorem c6_deallocate_single_push_witness :
    findClass [2, 4] 3 = some 1 ∧
    (deallocate [2, 4] 0 100 ⟨[.null, .addr 20], fun _ => .null⟩ 8 3).1 = .ok ∧
    (deallocate [2, 4] 0 100 ⟨[.null, .addr 20], fun _ => .null⟩ 8 3).2.heads =
      ([.null, .addr 20] : List Ptr).set 1 (.addr 8) :=
  ⟨by decide,
    ((c6_deallocate_single_push [2, 4] 0 100 ⟨[.null, .addr 20], fun _ => .null⟩ 8 3
      (by decide) (by decide) (by simp) (by decide) (by decide)).2 1 (by decide)).1,
    ((c6_deallocate_single_push [2, 4] 0 100 ⟨[.null, .addr 20], fun _ => .null⟩ 8 3
      (by decide) (by decide) (by simp) (by decide) (by decide)).2 1 (by decide)).2.1⟩

/-! ### C4: bounded exhaustion -/

theorem chainMem_not_mem {addrs : List Nat} {x : Nat} (h : x ∉ addrs) :
    chainMem addrs x = .null := by
  induction addrs with
  | nil => rfl
  | cons a rest ih =>
    have h1 : x ≠ a := fun hx => h (by simp [hx])
    have h2 : x ∉ rest := fun hx => h (by simp [hx])
    rw [chainMem, if_neg h1]
    exact ih h2

theorem allocate_mkChain_cons {c s : Nat} (hc : c ≠ 0) (hs : s ≤ c)
    (a : Nat) (addrs : List Nat) (ha : a ∉ addrs) (fuel : Nat) :
    allocate [c] (mkChain (a :: addrs)) s (fuel + 1) = (.ok a, mkChain addrs) := by
  have hf : findClass [c] s = some 0 := by
    rw [findClass_cons, if_neg hc, if_pos hs]
  have hscan : scanNE ([c].drop 0) ((mkChain (a :: addrs)).heads.drop 0) = some 0 := by
    show scanNE [c] [Ptr.addr a] = some 0
    rw [scanNE, if_neg hc, if_neg (fun hx => Ptr.noConfusion hx)]
  have hhd : headAt (mkChain (a :: addrs)).heads (0 + 0) = Ptr.addr a := rfl
  rw [allocate, hf]
  dsimp only
  rw [allocLoop, hscan]
  dsimp only
  rw [hhd]
  dsimp only
  rw [if_neg (by decide : ¬ (0:Nat) < 0)]
  refine congrArg (Prod.mk (AllocRes.ok a)) ?_
  refine PoolState.ext ?_ ?_
  · show [Ptr.addr a].set 0 (chainMem (a :: addrs) a) = [chainPtr addrs]
    rw [show chainMem (a :: addrs) a = chainPtr addrs by rw [chainMem, if_pos rfl]]
    rfl
  · funext x
    show (if x = a then Ptr.null else chainMem (a :: addrs) x) = chainMem addrs x
    by_cases hx : x = a
    · rw [if_pos hx, hx, chainMem_not_mem ha]
    · rw [if_neg hx, chainMem, if_neg hx]

theorem allocRun_mkChain {c s : Nat} (hc : c ≠ 0) (hs : s ≤ c) :
    ∀ addrs : List Nat, addrs.Nodup →
      allocRun [c] s 1 addrs.length (mkChain addrs) = (addrs.map .ok, mkChain []) := by
  intro addrs
  induction addrs with
  | nil => intro _; rfl
  | cons a rest ih =>
    intro hnd
    have ha : a ∉ rest := (List.nodup_cons.mp hnd).1
    have h1 : allocate [c] (mkChain (a :: rest)) s 1 = (.ok a, mkChain rest) :=
      allocate_mkChain_cons hc hs a rest ha 0
    rw [List.length_cons, allocRun, h1]
    dsimp only
    rw [ih (List.nodup_cons.mp hnd).2]
    simp

/-- C4: when no size class at or above the fitting class holds a free chunk,
the retry loop terminates once the attempt counter reaches its fixed 100000
threshold, signalling pool exhaustion with the state untouched; an iteration
whose scan stops at a list observed locked retries without incrementing the
attempt counter; and a single-class pool holding exactly the chunks `addrs`
serves exactly `addrs.length` allocations, in chain order, after which the
next allocation signals exhaustion. -/
theorem c4_bounded_exhaustion :
    (∀ (cs : List Nat) (l_exp : Nat) (st : PoolState) (fuel num_tries : Nat),
      scanNE (cs.drop l_exp) (st.heads.drop l_exp) = none →
      num_tries ≤ 100000 → 100001 - num_tries ≤ fuel →
      allocLoop cs l_exp fuel num_tries st = (.exhausted, st)) ∧
    (∀ (cs : List Nat) (l_exp : Nat) (st : PoolState) (fuel num_tries j : Nat),
      scanNE (cs.drop l_exp) (st.heads.drop l_exp) = some j →
      headAt st.heads (l_exp + j) = .lock →
      allocLoop cs l_exp (fuel + 1) num_tries st = allocLoop cs l_exp fuel num_tries st) ∧
    (∀ c s, c ≠ 0 → s ≤ c → ∀ addrs : List Nat, addrs.Nodup →
      (allocRun [c] s 1 addrs.length (mkChain addrs)).1 = addrs.map .ok ∧
      (allocate [c] (allocRun [c] s 1 addrs.length (mkChain addrs)).2 s 100001).1 =
        .exhausted) := by
  refine ⟨fun cs l_exp st fuel t h1 h2 h3 =>
      allocLoop_exhausted_of_scan_none cs l_exp st h1 fuel t h2 h3, ?_, ?_⟩
  · intro cs l_exp st fuel t j hscan hlk
    rw [allocLoop, hscan]
    dsimp only
    rw [hlk]
  · intro c s hc hs addrs hnd
    have hrun := allocRun_mkChain hc hs addrs hnd
    have hf : findClass [c] s = some 0 := by rw [findClass_cons, if_neg hc, if_pos hs]
    have hempty : scanNE ([c].drop 0) ((mkChain ([] : List Nat)).heads.drop 0) = none := by
      show scanNE [c] [Ptr.null] = none
      rw [scanNE, if_neg hc]
      rfl
    constructor
    · rw [hrun]
    · rw [hrun]
      dsimp only
      rw [allocate, hf]
      dsimp only
      rw [allocLoop_exhausted_of_scan_none [c] 0 (mkChain []) hempty 100001 0
        (by omega) (by omega)]

/-- Witness for C4: a two-chunk single-class pool serves both chunks in
order. -/
theorem c4_bounded_exhaustion_witness :
    ([8, 16] : List Nat).Nodup ∧
    (allocRun [4] 3 1 ([8, 16] : List Nat).length (mkChain [8, 16])).1 =
      ([8, 16] : List Nat).map .ok :=
  ⟨by decide, (c4_bounded_exhaustion.2.2 4 3 (by decide) (by decide) [8, 16] (by decide)).1⟩

/-! ### C7: the round trip returns the same address -/

theorem allocLoop_ok_inv {cs : List Nat} {l_exp fuel num_tries : Nat} {st st' : PoolState}
    {a : Nat} (h : allocLoop cs l_exp fuel num_tries st = (.ok a, st')) :
    ∃ j, scanNE (cs.drop l_exp) (st.heads.drop l_exp) = some j ∧
      headAt st.heads (l_exp + j) = .addr a ∧
      ((j = 0 ∧ st' = ⟨st.heads.set l_exp (st.mem a),
          fun x => if x = a then .null else st.mem x⟩) ∨
       (0 < j ∧ splitChunk cs l_exp (l_exp + j) a
          ⟨st.heads.set (l_exp + j) (st.mem a),
           fun x => if x = a then .null else st.mem x⟩ = some st')) := by
  induction fuel generalizing num_tries with
  | zero => simp [allocLoop] at h
  | succ fuel ih =>
    rw [allocLoop] at h
    cases hscan : scanNE (cs.drop l_exp) (st.heads.drop l_exp) with
    | none =>
      rw [hscan] at h
      dsimp only at h
      by_cases ht : num_tries = 100000
      · rw [if_pos ht] at h
        simp at h
      · rw [if_neg ht] at h
        obtain ⟨j1, hs2, _, _⟩ := ih h
        rw [hscan] at hs2
        exact Option.noConfusion hs2
    | some j =>
      rw [hscan] at h
      dsimp only at h
      cases hhd : headAt st.heads (l_exp + j) with
      | null =>
        rw [hhd] at h
        obtain ⟨j1, hs2, hh2, _⟩ := ih h
        rw [hscan] at hs2
        injection hs2 with hj1
        subst hj1
        rw [hhd] at hh2
        exact Ptr.noConfusion hh2
      | lock =>
        rw [hhd] at h
        obtain ⟨j1, hs2, hh2, _⟩ := ih h
        rw [hscan] at hs2
        injection hs2 with hj1
        subst hj1
        rw [hhd] at hh2
        exact Ptr.noConfusion hh2
      | addr a2 =>
        rw [hhd] at h
        dsimp only at h
        by_cases hj : 0 < j
        · rw [if_pos hj] at h
          cases hsp : splitChunk cs l_exp (l_exp + j) a2
              ⟨st.heads.set (l_exp + j) (st.mem a2),
               fun x => if x = a2 then .null else st.mem x⟩ with
          | none =>
            rw [hsp] at h
            simp at h
          | some st2 =>
            rw [hsp] at h
            rw [Prod.mk.injEq] at h
            obtain ⟨h1, h2⟩ := h
            injection h1 with h1
            subst h1
            subst h2
            exact ⟨j, rfl, hhd, Or.inr ⟨hj, hsp⟩⟩
        · rw [if_neg hj] at h
          rw [Prod.mk.injEq] at h
          obtain ⟨h1, h2⟩ := h
          injection h1 with h1
          subst h1
          have hj0 : j = 0 := by omega
          subst hj0
          refine ⟨0, rfl, hhd, Or.inl ⟨rfl, ?_⟩⟩
          rw [← h2]
          simp

/-- C7: in a single-threaded run from a properly constructed pool (no lock
sentinel among the head words or link words), if `allocate s` succeeds with
address `a`, then `deallocate a s` succeeds and an immediately following
`allocate s` returns the same address `a`. -/
theorem c7_roundtrip (cs : List Nat) (st : PoolState) (base len s f1 f2 a : Nat)
    (hM : ∀ x, st.mem x ≠ .lock)
    (h1 : (allocate cs st s f1).1 = .ok a)
    (hr : ¬(a < base ∨ base + len < a + s)) :
    (deallocate cs base len (allocate cs st s f1).2 a s).1 = .ok ∧
    (allocate cs (deallocate cs base len (allocate cs st s f1).2 a s).2 s (f2 + 1)).1 =
      .ok a := by
  -- peel the size-class lookup off the first allocate
  rw [allocate] at h1
  cases hfc : findClass cs s with
  | none =>
    rw [hfc] at h1
    simp at h1
  | some l_exp =>
    rw [hfc] at h1
    dsimp only at h1
    have hpair : allocLoop cs l_exp f1 0 st =
        ((allocLoop cs l_exp f1 0 st).1, (allocLoop cs l_exp f1 0 st).2) := rfl
    rw [h1] at hpair
    obtain ⟨j, hscan, hhd, hcase⟩ := allocLoop_ok_inv hpair
    have hjlt : l_exp + j < st.heads.length := headAt_lt_length hhd
    have hstA : (allocate cs st s f1).2 = (allocLoop cs l_exp f1 0 st).2 := by
      rw [allocate, hfc]
    set stA := (allocLoop cs l_exp f1 0 st).2 with hdefA
    -- facts about the post-allocate state
    have hAfacts : headAt stA.heads l_exp ≠ .lock ∧ l_exp < stA.heads.length := by
      rcases hcase with ⟨hj0, hst⟩ | ⟨hjpos, hsp⟩
      · rw [hst]
        constructor
        · rw [headAt_set_self (by omega)]
          exact hM a
        · simp
          omega
      · rw [splitChunk] at hsp
        dsimp only at hsp
        rw [insert_list] at hsp
        by_cases hlk2 : headAt
            (st.heads.set (l_exp + j) (st.mem a)) l_exp = .lock
        · rw [if_pos hlk2] at hsp
          exact Option.noConfusion hsp
        · rw [if_neg hlk2] at hsp
          injection hsp with hsp
          rw [← hsp]
          constructor
          · rw [headAt_set_self (by simp; omega)]
            exact fun hx => Ptr.noConfusion hx
          · simp
            omega
    -- the deallocate pushes a back onto list l_exp
    have hAlk := hAfacts.1
    have hde : deallocate cs base len stA a s =
        (.ok, ⟨stA.heads.set l_exp (.addr a),
               fun x => if x = a then headAt stA.heads l_exp else stA.mem x⟩) := by
      rw [deallocate, if_neg hr, hfc]
      dsimp only
      rw [insert_list, if_neg hAlk]
    rw [hstA, hde]
    refine ⟨rfl, ?_⟩
    -- the second allocate pops a again
    dsimp only
    have hlex : l_exp < cs.length := findClass_some_lt_length hfc
    have hc0 : cs.getD l_exp 0 ≠ 0 := (findClass_some_le hfc).2
    have hB : headAt (stA.heads.set l_exp (.addr a)) l_exp = .addr a :=
      headAt_set_self hAfacts.2 _
    have hdrop : cs.drop l_exp = cs.getD l_exp 0 :: cs.drop (l_exp + 1) := by
      rw [List.getD_eq_getElem _ _ hlex]
      exact List.drop_eq_getElem_cons hlex
    rw [allocate, hfc]
    dsimp only
    rw [allocLoop]
    have hscanB : scanNE (cs.drop l_exp)
        ((⟨stA.heads.set l_exp (.addr a),
           fun x => if x = a then headAt stA.heads l_exp else stA.mem x⟩ :
          PoolState).heads.drop l_exp) = some 0 := by
      rw [hdrop, scanNE, if_neg hc0]
      dsimp only
      rw [headD_drop, hB]
      rw [if_neg (fun hx => Ptr.noConfusion hx)]
    rw [hscanB]
    dsimp only
    have hBadd : headAt ((⟨stA.heads.set l_exp (.addr a),
        fun x => if x = a then headAt stA.heads l_exp else stA.mem x⟩ :
          PoolState).heads) (l_exp + 0) = .addr a := by
      simpa using hB
    rw [hBadd]
    dsimp only
    rw [if_neg (by omega : ¬ (0:Nat) < 0)]

/-- Witness for C7: a one-class pool with a single chunk at address 8;
allocate(3) returns 8, deallocate(8, 3) and a second allocate(3) return 8
again. -/
theorem c7_roundtrip_witness :
    (allocate [4] ⟨[.addr 8], fun _ => .null⟩ 3 1).1 = .ok 8 ∧
    (allocate [4]
      (deallocate [4] 0 100 (allocate [4] ⟨[.addr 8], fun _ => .null⟩ 3 1).2 8 3).2
      3 1).1 = .ok 8 :=
  ⟨rfl, (c7_roundtrip [4] ⟨[.addr 8], fun _ => .null⟩ 0 100 3 1 0 8
    (fun _ => fun hx => Ptr.noConfusion hx) rfl (by decide)).2⟩

/-! ### The split chain for well-sized classes -/

theorem linkChunks_at (p sze : Nat) (mem : Nat → Ptr) (hsz : 0 < sze) :
    ∀ k i, 1 ≤ i → i ≤ k →
      linkChunks p sze mem k (p + i * sze) = .addr (p + (i + 1) * sze) := by
  intro k
  induction k with
  | zero => intro i h1 h2; omega
  | succ k ih =>
    intro i h1 h2
    rw [linkChunks]
    dsimp only
    by_cases hik : i = k + 1
    · rw [if_pos (by rw [hik])]
      rw [hik]
    · have hne : p + i * sze ≠ p + (k + 1) * sze := by
        intro heq
        have hmul : i * sze = (k + 1) * sze := by omega
        exact hik (Nat.eq_of_mul_eq_mul_right hsz hmul)
      rw [if_neg hne]
      exact ih i h1 (by omega)

theorem linkChunks_other (p sze : Nat) (mem : Nat → Ptr) :
    ∀ k x, (∀ j, 1 ≤ j → j ≤ k → x ≠ p + j * sze) →
      linkChunks p sze mem k x = mem x := by
  intro k
  induction k with
  | zero => intro x _; rfl
  | succ k ih =>
    intro x hx
    rw [linkChunks]
    dsimp only
    rw [if_neg (hx (k + 1) (by omega) (by omega))]
    exact ih x (fun j hj1 hj2 => hx j hj1 (by omega))

/-- For a split with `num_chunks ≥ 2` the state after `splitChunk` realises
exactly the splitting invariant of the specification: the head of free list
`l_exp` becomes sub-chunk 1 at `p + sze`, sub-chunks `1 .. num_chunks-2` each
link to the next sub-chunk, the last sub-chunk `num_chunks-1` links to the
list's previous head, and no other memory word changes — so precisely the
`num_chunks - 1` sub-chunks at offsets `sze, ..., (num_chunks-1)*sze` are
pushed, and sub-chunk 0 (`p` itself) is the only one not re-inserted. -/
theorem splitChunk_chain_of_two_le (cs : List Nat) (l_exp l p : Nat)
    (st st2 : PoolState)
    (hsz : 0 < cs.getD l_exp 0)
    (hn : 2 ≤ cs.getD l 0 / cs.getD l_exp 0)
    (hlen : l_exp < st.heads.length)
    (hsp : splitChunk cs l_exp l p st = some st2) :
    headAt st2.heads l_exp = .addr (p + cs.getD l_exp 0) ∧
    (∀ i, 1 ≤ i → i < cs.getD l 0 / cs.getD l_exp 0 - 1 →
      st2.mem (p + i * cs.getD l_exp 0) = .addr (p + (i + 1) * cs.getD l_exp 0)) ∧
    st2.mem (p + (cs.getD l 0 / cs.getD l_exp 0 - 1) * cs.getD l_exp 0) =
      headAt st.heads l_exp ∧
    (∀ x, (∀ i, 1 ≤ i → i ≤ cs.getD l 0 / cs.getD l_exp 0 - 1 →
        x ≠ p + i * cs.getD l_exp 0) →
      st2.mem x = st.mem x) := by
  rw [splitChunk] at hsp
  rw [insert_list] at hsp
  by_cases hlk : headAt st.heads l_exp = .lock
  · rw [if_pos hlk] at hsp
    exact Option.noConfusion hsp
  · rw [if_neg hlk] at hsp
    injection hsp with hsp
    rw [← hsp]
    refine ⟨?_, ?_, ?_, ?_⟩
    · dsimp only
      exact headAt_set_self hlen _
    · intro i h1 h2
      dsimp only
      have hne : p + i * cs.getD l_exp 0 ≠
          p + (cs.getD l 0 / cs.getD l_exp 0 - 1) * cs.getD l_exp 0 := by
        intro heq
        have hmul : i * cs.getD l_exp 0 =
            (cs.getD l 0 / cs.getD l_exp 0 - 1) * cs.getD l_exp 0 := by omega
        have := Nat.eq_of_mul_eq_mul_right hsz hmul
        omega
      rw [if_neg hne]
      exact linkChunks_at p (cs.getD l_exp 0) st.mem hsz
        (cs.getD l 0 / cs.getD l_exp 0 - 2) i h1 (by omega)
    · dsimp only
      rw [if_pos rfl]
    · intro x hx
      dsimp only
      rw [if_neg (hx (cs.getD l 0 / cs.getD l_exp 0 - 1) (by omega) (by omega))]
      exact linkChunks_other p (cs.getD l_exp 0) st.mem
        (cs.getD l 0 / cs.getD l_exp 0 - 2) x (fun j hj1 hj2 => hx j hj1 (by omega))

end MemPool
